import Mathlib

/-!
Verification of the `bmf-parser` binary BMFont decoder (`src/lib.rs`).

The decoder is embedded shallowly: a byte buffer is a `List Nat` (every
element a byte value), a `Cursor` over the buffer is represented by the
list of bytes not yet consumed (reads are strictly sequential), and the
`io::Result` type is `Except BMFError`.  The three error situations the
Rust code can produce are distinguished by constructor:

* `unexpectedEof` — a `read_u8` / `read_u16` / `read_u32` / `read_exact`
  hitting the end of the available bytes (Rust `ErrorKind::UnexpectedEof`);
* `invalidHeader` — the `InvalidData` error with message
  "Invalid BMFont header" built in `from_octets`;
* `invalidUtf8` — the `InvalidData` error wrapping a `FromUtf8Error`
  in `parse_info_block` / `parse_pages_block`.

Rust `String`s produced by `String::from_utf8` are kept as their byte
lists (`List Nat`); the UTF-8 check performed by `String::from_utf8` is
modelled by `validUtf8`.  The `HashMap<u32, Char>` is modelled as an
association list in insertion order together with `insertChar`, which has
the `HashMap::insert` semantics: replace the entry with an equal key if
one exists, otherwise append.
-/

inductive BMFError where
  | unexpectedEof
  | invalidHeader
  | invalidUtf8
deriving DecidableEq, Repr

/-- Little-endian value of two bytes, as read by `read_u16::<LittleEndian>`. -/
def u16le (b0 b1 : Nat) : Nat := b0 + 256 * b1

/-- Little-endian value of four bytes, as read by `read_u32::<LittleEndian>`. -/
def u32le (b0 b1 b2 b3 : Nat) : Nat :=
  b0 + 256 * b1 + 65536 * b2 + 16777216 * b3

/-- Little-endian signed value of two bytes, as read by
`read_i16::<LittleEndian>` (two's complement). -/
def i16le (b0 b1 : Nat) : Int :=
  let v := b0 + 256 * b1
  if v < 32768 then (v : Int) else (v : Int) - 65536

/-- Mirrors `struct InfoBlock` of the source.  `font_name` holds the bytes
of the decoded `String`. -/
structure InfoBlock where
  font_size : Int
  bit_field : Nat
  char_set : Nat
  stretch_h : Nat
  aa : Nat
  padding : List Nat
  spacing : List Nat
  outline : Nat
  font_name : List Nat
deriving DecidableEq, Repr

/-- Mirrors `struct CommonBlock` of the source. -/
structure CommonBlock where
  line_height : Nat
  base : Nat
  scale_w : Nat
  scale_h : Nat
  pages : Nat
  bit_field : Nat
  alpha_chnl : Nat
  red_chnl : Nat
  green_chnl : Nat
  blue_chnl : Nat
deriving DecidableEq, Repr

/-- Mirrors `struct Char` of the source (named `GlyphChar` here because
`Char` is taken in Lean). -/
structure GlyphChar where
  id : Nat
  x : Nat
  y : Nat
  width : Nat
  height : Nat
  x_offset : Int
  y_offset : Int
  x_advance : Int
  page : Nat
  chnl : Nat
deriving DecidableEq, Repr

/-- Mirrors `struct KerningPair` of the source. -/
structure KerningPair where
  first : Nat
  second : Nat
  amount : Int
deriving DecidableEq, Repr

/-- Mirrors `struct BMFont` of the source.  `pages` holds the byte lists of
the page-name strings; `chars` is the `HashMap<u32, Char>` modelled as an
association list built with `insertChar`. -/
structure BMFont where
  info : Option InfoBlock
  common : Option CommonBlock
  pages : List (List Nat)
  chars : List GlyphChar
  kernings : List KerningPair
deriving DecidableEq, Repr

/-- True when `b` is a UTF-8 continuation byte (`0x80..0xBF`). -/
def contB (b : Nat) : Bool := 128 ≤ b && b < 192

/-- States of the UTF-8 acceptance automaton: `start` between code points,
the others mid-sequence, named by the number of continuation bytes still
expected and, for the states entered from lead bytes `E0`, `ED`, `F0` and
`F4`, the restricted range of the next continuation byte (RFC 3629:
excludes overlong encodings, surrogates and code points above
`U+10FFFF`). -/
inductive Utf8State where
  | start
  | one
  | two
  | three
  | twoE0
  | twoED
  | threeF0
  | threeF4
deriving DecidableEq, Repr

/-- Transition of the UTF-8 acceptance automaton on one byte. -/
def utf8Step : Utf8State → Nat → Option Utf8State
  | .start, b =>
    if b < 128 then some .start
    else if b < 194 then none
    else if b < 224 then some .one
    else if b = 224 then some .twoE0
    else if b = 237 then some .twoED
    else if b < 240 then some .two
    else if b = 240 then some .threeF0
    else if b < 244 then some .three
    else if b = 244 then some .threeF4
    else none
  | .one, b => if contB b then some .start else none
  | .two, b => if contB b then some .one else none
  | .twoE0, b => if 160 ≤ b && b < 192 then some .one else none
  | .twoED, b => if 128 ≤ b && b < 160 then some .one else none
  | .three, b => if contB b then some .two else none
  | .threeF0, b => if 144 ≤ b && b < 192 then some .two else none
  | .threeF4, b => if 128 ≤ b && b < 144 then some .two else none

/-- Runs the automaton over a byte list from the given state. -/
def utf8Run (s : Utf8State) : List Nat → Option Utf8State
  | [] => some s
  | b :: rest =>
    match utf8Step s b with
    | some s2 => utf8Run s2 rest
    | none => none

/-- Decides whether a byte list is valid UTF-8 — the check performed by
Rust's `String::from_utf8`: the automaton accepts the whole list and ends
between code points. -/
def validUtf8 (l : List Nat) : Bool :=
  decide (utf8Run .start l = some .start)

/-- Strips trailing NUL bytes: the byte-level effect of
`trim_end_matches('\0')` on a valid-UTF-8 string. -/
def trimEndNuls (l : List Nat) : List Nat :=
  (l.reverse.dropWhile (fun b => b = 0)).reverse

/-- Models `BufRead::read_until(0, ..)` on the remaining bytes: returns the
run up to and including the first NUL (or up to the end when no NUL
occurs) together with the bytes after it. -/
def readUntilNul : List Nat → List Nat × List Nat
  | [] => ([], [])
  | b :: rest =>
    if b = 0 then ([b], rest)
    else
      let p := readUntilNul rest
      (b :: p.1, p.2)

/-- Models `HashMap::insert(ch.id, ch)` on the association-list model:
replace the entry with the same id when present, else append. -/
def insertChar (m : List GlyphChar) (c : GlyphChar) : List GlyphChar :=
  if m.any (fun x => x.id = c.id) then
    m.map (fun x => if x.id = c.id then c else x)
  else m ++ [c]

/-- Mirrors `BMFont::parse_info_block`: fourteen fixed-layout bytes, then
all remaining bytes as the UTF-8 font name with trailing NULs stripped. -/
def parse_info_block : List Nat → Except BMFError InfoBlock
  | a0 :: a1 :: bf :: cs :: s0 :: s1 :: av :: p0 :: p1 :: p2 :: p3 :: sp0 :: sp1 :: ol :: rest =>
    if validUtf8 rest then
      .ok { font_size := i16le a0 a1, bit_field := bf, char_set := cs,
            stretch_h := u16le s0 s1, aa := av, padding := [p0, p1, p2, p3],
            spacing := [sp0, sp1], outline := ol, font_name := trimEndNuls rest }
    else .error .invalidUtf8
  | _ => .error .unexpectedEof

/-- Mirrors `BMFont::parse_common_block`: ten little-endian fields read
sequentially (15 bytes); bytes beyond the fields are left unread in the
cursor. -/
def parse_common_block : List Nat → Except BMFError CommonBlock
  | l0 :: l1 :: b0 :: b1 :: w0 :: w1 :: e0 :: e1 :: pg0 :: pg1 :: bf :: ac :: rc :: gc :: bc :: _ =>
    .ok { line_height := u16le l0 l1, base := u16le b0 b1, scale_w := u16le w0 w1,
          scale_h := u16le e0 e1, pages := u16le pg0 pg1, bit_field := bf,
          alpha_chnl := ac, red_chnl := rc, green_chnl := gc, blue_chnl := bc }
  | _ => .error .unexpectedEof

theorem readUntilNul_snd_length (l : List Nat) :
    (readUntilNul l).2.length ≤ l.length := by
  induction l with
  | nil => simp [readUntilNul]
  | cons b rest ih =>
    simp only [readUntilNul]
    split
    · simp
    · simpa using Nat.le_succ_of_le ih

/-- Mirrors the loop of `BMFont::parse_pages_block`: while bytes remain,
read one NUL-terminated run, convert it from UTF-8, strip trailing NULs
and push it. -/
def parse_pages_go (data : List Nat) (acc : List (List Nat)) :
    Except BMFError (List (List Nat)) :=
  match data with
  | [] => .ok acc
  | b :: rest =>
    let p := readUntilNul (b :: rest)
    if validUtf8 p.1 then parse_pages_go p.2 (acc ++ [trimEndNuls p.1])
    else .error .invalidUtf8
termination_by data.length
decreasing_by
  simp only [readUntilNul]
  split
  · simp
  · have := readUntilNul_snd_length rest
    simp only [List.length_cons]
    omega

/-- Mirrors `BMFont::parse_pages_block`. -/
def parse_pages_block (data : List Nat) : Except BMFError (List (List Nat)) :=
  parse_pages_go data []

/-- Mirrors the loop of `BMFont::parse_chars_block`: while bytes remain,
read one 20-byte glyph record field by field and insert it keyed by id;
any field read past the end fails with `unexpectedEof`. -/
def parse_chars_go : List Nat → List GlyphChar → Except BMFError (List GlyphChar)
  | [], acc => .ok acc
  | i0 :: i1 :: i2 :: i3 :: x0 :: x1 :: y0 :: y1 :: w0 :: w1 :: h0 :: h1 ::
      xo0 :: xo1 :: yo0 :: yo1 :: xa0 :: xa1 :: pg :: ch :: rest, acc =>
    parse_chars_go rest (insertChar acc
      { id := u32le i0 i1 i2 i3, x := u16le x0 x1, y := u16le y0 y1,
        width := u16le w0 w1, height := u16le h0 h1,
        x_offset := i16le xo0 xo1, y_offset := i16le yo0 yo1,
        x_advance := i16le xa0 xa1, page := pg, chnl := ch })
  | _, _ => .error .unexpectedEof

/-- Mirrors `BMFont::parse_chars_block`. -/
def parse_chars_block (data : List Nat) : Except BMFError (List GlyphChar) :=
  parse_chars_go data []

/-- Mirrors the loop of `BMFont::parse_kerning_block`: while bytes remain,
read one 10-byte kerning record and append it. -/
def parse_kerning_go : List Nat → List KerningPair → Except BMFError (List KerningPair)
  | [], acc => .ok acc
  | f0 :: f1 :: f2 :: f3 :: s0 :: s1 :: s2 :: s3 :: a0 :: a1 :: rest, acc =>
    parse_kerning_go rest (acc ++
      [{ first := u32le f0 f1 f2 f3, second := u32le s0 s1 s2 s3,
         amount := i16le a0 a1 }])
  | _, _ => .error .unexpectedEof

/-- Mirrors `BMFont::parse_kerning_block`. -/
def parse_kerning_block (data : List Nat) : Except BMFError (List KerningPair) :=
  parse_kerning_go data []

/-- The `match block_type` dispatch of `from_octets`: tags 1–5 route the
payload to the matching decoder and overwrite that field of the result;
any other tag leaves the state unchanged. -/
def dispatch (tag : Nat) (payload : List Nat) (st : BMFont) : Except BMFError BMFont :=
  if tag = 1 then (parse_info_block payload).map fun b => { st with info := some b }
  else if tag = 2 then (parse_common_block payload).map fun b => { st with common := some b }
  else if tag = 3 then (parse_pages_block payload).map fun p => { st with pages := p }
  else if tag = 4 then (parse_chars_block payload).map fun m => { st with chars := m }
  else if tag = 5 then (parse_kerning_block payload).map fun k => { st with kernings := k }
  else .ok st

/-- Mirrors the `while let Ok(block_type) = cursor.read_u8()` loop of
`from_octets`: end of input before a tag byte ends the loop successfully;
after a tag byte, a 4-byte little-endian length and a payload of exactly
that length must follow (`unexpectedEof` otherwise). -/
def blockLoop : List Nat → BMFont → Except BMFError BMFont
  | [], st => .ok st
  | [_], _ => .error .unexpectedEof
  | [_, _], _ => .error .unexpectedEof
  | [_, _, _], _ => .error .unexpectedEof
  | [_, _, _, _], _ => .error .unexpectedEof
  | tag :: s0 :: s1 :: s2 :: s3 :: rest, st =>
    let size := u32le s0 s1 s2 s3
    if size ≤ rest.length then
      match dispatch tag (rest.take size) st with
      | .ok st2 => blockLoop (rest.drop size) st2
      | .error e => .error e
    else .error .unexpectedEof
termination_by l _ => l.length
decreasing_by
  simp only [List.length_drop, List.length_cons]
  omega

/-- Mirrors `BMFont::from_octets`: the four magic-byte reads with their
short-circuit comparison against `66, 77, 70, 3`, then the block loop on
an initially empty `BMFont`. -/
def from_octets (data : List Nat) : Except BMFError BMFont :=
  match data with
  | [] => .error .unexpectedEof
  | b0 :: r0 =>
    if b0 = 66 then
      match r0 with
      | [] => .error .unexpectedEof
      | b1 :: r1 =>
        if b1 = 77 then
          match r1 with
          | [] => .error .unexpectedEof
          | b2 :: r2 =>
            if b2 = 70 then
              match r2 with
              | [] => .error .unexpectedEof
              | b3 :: r3 =>
                if b3 = 3 then
                  blockLoop r3 { info := none, common := none, pages := [],
                                 chars := [], kernings := [] }
                else .error .invalidHeader
            else .error .invalidHeader
        else .error .invalidHeader
    else .error .invalidHeader

/-! ### Helper lemmas -/

theorem readUntilNul_cons_length (b : Nat) (rest : List Nat) :
    (readUntilNul (b :: rest)).2.length ≤ rest.length := by
  simp only [readUntilNul]
  split
  · simp
  · simpa using readUntilNul_snd_length rest

theorem map_preserves_error_ne {α β : Type} (x : Except BMFError α) (f : α → β)
    (h : x ≠ .error .invalidHeader) : x.map f ≠ .error .invalidHeader := by
  cases x with
  | ok a => simp [Except.map]
  | error e => simpa [Except.map] using h

theorem parse_info_block_ne_header (d : List Nat) :
    parse_info_block d ≠ .error .invalidHeader := by
  rw [parse_info_block.eq_def]
  split
  · split <;> simp
  · simp

theorem parse_common_block_ne_header (d : List Nat) :
    parse_common_block d ≠ .error .invalidHeader := by
  rw [parse_common_block.eq_def]
  split <;> simp

theorem parse_pages_go_ne_header (d : List Nat) (acc : List (List Nat)) :
    parse_pages_go d acc ≠ .error .invalidHeader := by
  induction d, acc using parse_pages_go.induct with
  | case1 acc => simp [parse_pages_go]
  | case2 acc b rest p hv ih =>
    rw [parse_pages_go]
    simp only [p] at hv ih
    rw [if_pos hv]
    exact ih
  | case3 acc b rest p hv =>
    rw [parse_pages_go]
    simp only [p] at hv
    rw [if_neg hv]
    simp

theorem parse_pages_block_ne_header (d : List Nat) :
    parse_pages_block d ≠ .error .invalidHeader :=
  parse_pages_go_ne_header d []

theorem parse_chars_go_ne_header (d : List Nat) (acc : List GlyphChar) :
    parse_chars_go d acc ≠ .error .invalidHeader := by
  induction d, acc using parse_chars_go.induct with
  | case1 acc => simp [parse_chars_go]
  | case2 i0 i1 i2 i3 x0 x1 y0 y1 w0 w1 h0 h1 xo0 xo1 yo0 yo1 xa0 xa1 pg ch rest acc ih =>
    rw [parse_chars_go]
    exact ih
  | case3 t x h1 h2 =>
    rw [parse_chars_go.eq_def]
    split
    · exact absurd rfl h1
    · exact absurd rfl (h2 _ _ _ _ _ _ _ _ _ _ _ _ _ _ _ _ _ _ _ _ _)
    · simp

theorem parse_chars_block_ne_header (d : List Nat) :
    parse_chars_block d ≠ .error .invalidHeader :=
  parse_chars_go_ne_header d []

theorem parse_kerning_go_ne_header (d : List Nat) (acc : List KerningPair) :
    parse_kerning_go d acc ≠ .error .invalidHeader := by
  induction d, acc using parse_kerning_go.induct with
  | case1 acc => simp [parse_kerning_go]
  | case2 f0 f1 f2 f3 s0 s1 s2 s3 a0 a1 rest acc ih =>
    rw [parse_kerning_go]
    exact ih
  | case3 t x h1 h2 =>
    rw [parse_kerning_go.eq_def]
    split
    · exact absurd rfl h1
    · exact absurd rfl (h2 _ _ _ _ _ _ _ _ _ _ _)
    · simp

theorem parse_kerning_block_ne_header (d : List Nat) :
    parse_kerning_block d ≠ .error .invalidHeader :=
  parse_kerning_go_ne_header d []

theorem dispatch_ne_header (tag : Nat) (p : List Nat) (st : BMFont) :
    dispatch tag p st ≠ .error .invalidHeader := by
  unfold dispatch
  split
  · exact map_preserves_error_ne _ _ (parse_info_block_ne_header p)
  split
  · exact map_preserves_error_ne _ _ (parse_common_block_ne_header p)
  split
  · exact map_preserves_error_ne _ _ (parse_pages_block_ne_header p)
  split
  · exact map_preserves_error_ne _ _ (parse_chars_block_ne_header p)
  split
  · exact map_preserves_error_ne _ _ (parse_kerning_block_ne_header p)
  · simp

theorem blockLoop_ne_header (d : List Nat) (st : BMFont) :
    blockLoop d st ≠ .error .invalidHeader := by
  induction d, st using blockLoop.induct with
  | case1 st => simp [blockLoop]
  | case2 a x => simp [blockLoop]
  | case3 a b x => simp [blockLoop]
  | case4 a b c x => simp [blockLoop]
  | case5 a b c d x => simp [blockLoop]
  | case6 tag s0 s1 s2 s3 rest st size hle st2 hdisp ih =>
    rw [blockLoop]
    simp only [size] at hle hdisp ih
    rw [if_pos hle, hdisp]
    exact ih
  | case7 tag s0 s1 s2 s3 rest st size hle e hdisp =>
    rw [blockLoop]
    simp only [size] at hle hdisp
    rw [if_pos hle, hdisp]
    have hd := dispatch_ne_header tag (List.take (u32le s0 s1 s2 s3) rest) st
    rw [hdisp] at hd
    simpa using hd
  | case8 tag s0 s1 s2 s3 rest st size hnle =>
    rw [blockLoop]
    simp only [size] at hnle
    rw [if_neg hnle]
    simp

theorem parse_chars_go_not_mult (d : List Nat) (acc : List GlyphChar)
    (h : d.length % 20 ≠ 0) : parse_chars_go d acc = .error .unexpectedEof := by
  induction d, acc using parse_chars_go.induct with
  | case1 acc => simp at h
  | case2 i0 i1 i2 i3 x0 x1 y0 y1 w0 w1 h0 h1 xo0 xo1 yo0 yo1 xa0 xa1 pg ch rest acc ih =>
    rw [parse_chars_go]
    apply ih
    simp only [List.length_cons] at h
    omega
  | case3 t x h1 h2 =>
    rw [parse_chars_go.eq_def]
    split
    · exact absurd rfl h1
    · exact absurd rfl (h2 _ _ _ _ _ _ _ _ _ _ _ _ _ _ _ _ _ _ _ _ _)
    · rfl

theorem parse_kerning_go_not_mult (d : List Nat) (acc : List KerningPair)
    (h : d.length % 10 ≠ 0) : parse_kerning_go d acc = .error .unexpectedEof := by
  induction d, acc using parse_kerning_go.induct with
  | case1 acc => simp at h
  | case2 f0 f1 f2 f3 s0 s1 s2 s3 a0 a1 rest acc ih =>
    rw [parse_kerning_go]
    apply ih
    simp only [List.length_cons] at h
    omega
  | case3 t x h1 h2 =>
    rw [parse_kerning_go.eq_def]
    split
    · exact absurd rfl h1
    · exact absurd rfl (h2 _ _ _ _ _ _ _ _ _ _ _)
    · rfl

/-! ### Claim theorems -/

/-- C1: a buffer of at least 4 bytes whose first four bytes differ from
`66, 77, 70, 3` makes `from_octets` fail with the invalid-header error
and return no partial result, regardless of the remaining content; when
the first four bytes equal that sequence, header validation consumes
exactly those 4 bytes and block parsing proceeds on the rest. -/
theorem from_octets_header_check (data : List Nat) (h : 4 ≤ data.length) :
    (data.take 4 ≠ [66, 77, 70, 3] → from_octets data = .error .invalidHeader) ∧
    (data.take 4 = [66, 77, 70, 3] →
      from_octets data =
        blockLoop (data.drop 4)
          { info := none, common := none, pages := [], chars := [], kernings := [] }) := by
  match data with
  | b0 :: b1 :: b2 :: b3 :: rest =>
    have ht : (b0 :: b1 :: b2 :: b3 :: rest).take 4 = [b0, b1, b2, b3] := rfl
    constructor
    · intro hne
      rw [ht] at hne
      by_cases h0 : b0 = 66
      · by_cases h1 : b1 = 77
        · by_cases h2 : b2 = 70
          · by_cases h3 : b3 = 3
            · exact absurd (by rw [h0, h1, h2, h3]) hne
            · simp [from_octets, h0, h1, h2, h3]
          · simp [from_octets, h0, h1, h2]
        · simp [from_octets, h0, h1]
      · simp [from_octets, h0]
    · intro he
      rw [ht] at he
      obtain ⟨rfl, rfl, rfl, rfl⟩ : b0 = 66 ∧ b1 = 77 ∧ b2 = 70 ∧ b3 = 3 := by
        simpa using he
      rfl

theorem from_octets_header_check_witness :
    4 ≤ ([0, 0, 0, 0] : List Nat).length ∧
    from_octets [0, 0, 0, 0] = .error .invalidHeader :=
  ⟨by decide, (from_octets_header_check [0, 0, 0, 0] (by decide)).1 (by decide)⟩

/-- C2: a buffer consisting of exactly the valid 4-byte magic signature and
nothing else decodes successfully to a `BMFont` with `info = none`,
`common = none` and empty `pages`, `chars` and `kernings`. -/
theorem from_octets_magic_only :
    from_octets [66, 77, 70, 3] =
      .ok { info := none, common := none, pages := [], chars := [], kernings := [] } := by
  show blockLoop [] _ = _
  rw [blockLoop]

/-- C5: a Chars block whose payload length is not a multiple of 20, and a
Kerning block whose payload length is not a multiple of 10, fail with the
truncation (`unexpectedEof`) error on the final partial record. -/
theorem nonmultiple_record_block_errors (data : List Nat) :
    (data.length % 20 ≠ 0 → parse_chars_block data = .error .unexpectedEof) ∧
    (data.length % 10 ≠ 0 → parse_kerning_block data = .error .unexpectedEof) :=
  ⟨fun h => parse_chars_go_not_mult data [] h, fun h => parse_kerning_go_not_mult data [] h⟩

theorem nonmultiple_record_block_errors_witness :
    (([0] : List Nat).length % 20 ≠ 0 ∧ parse_chars_block [0] = .error .unexpectedEof) ∧
    (([0] : List Nat).length % 10 ≠ 0 ∧ parse_kerning_block [0] = .error .unexpectedEof) :=
  ⟨⟨by decide, (nonmultiple_record_block_errors [0]).1 (by decide)⟩,
   ⟨by decide, (nonmultiple_record_block_errors [0]).2 (by decide)⟩⟩

/-- C6: the concrete 20-byte little-endian Chars record with id 65,
width 10, height 12, x-advance 11 and channel 15 decodes to exactly those
field values, and in general a 20-byte record decodes field by field in
the fixed little-endian layout id:u32, x/y/width/height:u16,
x_offset/y_offset/x_advance:i16, page:u8, chnl:u8. -/
theorem chars_record_layout :
    parse_chars_block [65, 0, 0, 0, 0, 0, 0, 0, 10, 0, 12, 0, 0, 0, 0, 0, 11, 0, 0, 15] =
      .ok [{ id := 65, x := 0, y := 0, width := 10, height := 12, x_offset := 0,
             y_offset := 0, x_advance := 11, page := 0, chnl := 15 }] ∧
    ∀ i0 i1 i2 i3 x0 x1 y0 y1 w0 w1 h0 h1 xo0 xo1 yo0 yo1 xa0 xa1 pg ch : Nat,
      parse_chars_block
          [i0, i1, i2, i3, x0, x1, y0, y1, w0, w1, h0, h1,
           xo0, xo1, yo0, yo1, xa0, xa1, pg, ch] =
        .ok [{ id := u32le i0 i1 i2 i3, x := u16le x0 x1, y := u16le y0 y1,
               width := u16le w0 w1, height := u16le h0 h1,
               x_offset := i16le xo0 xo1, y_offset := i16le yo0 yo1,
               x_advance := i16le xa0 xa1, page := pg, chnl := ch }] :=
  ⟨rfl, fun _ _ _ _ _ _ _ _ _ _ _ _ _ _ _ _ _ _ _ _ => rfl⟩

/-- C10: a buffer shorter than 4 bytes whose bytes are a proper prefix of
the magic sequence fails with the end-of-file error, not the
invalid-header error; and the invalid-header error can only arise when a
read magic byte differs — whenever the first `min 4 len` bytes agree with
the magic sequence, `from_octets` never returns the invalid-header
error. -/
theorem from_octets_short_magic (data : List Nat) (hlen : data.length < 4)
    (hpre : data = List.take data.length [66, 77, 70, 3]) :
    from_octets data = .error .unexpectedEof ∧
    ∀ d : List Nat,
      List.take (min 4 d.length) d = List.take (min 4 d.length) [66, 77, 70, 3] →
        from_octets d ≠ .error .invalidHeader := by
  constructor
  · match data, hlen with
    | [], _ => rfl
    | [b0], _ => rw [show b0 = 66 by simpa using hpre]; rfl
    | [b0, b1], _ =>
      obtain ⟨rfl, rfl⟩ : b0 = 66 ∧ b1 = 77 := by simpa using hpre
      rfl
    | [b0, b1, b2], _ =>
      obtain ⟨rfl, rfl, rfl⟩ : b0 = 66 ∧ b1 = 77 ∧ b2 = 70 := by simpa using hpre
      rfl
  · intro d hd
    match d with
    | [] => simp [from_octets]
    | [b0] =>
      obtain rfl : b0 = 66 := by simpa using hd
      simp [from_octets]
    | [b0, b1] =>
      obtain ⟨rfl, rfl⟩ : b0 = 66 ∧ b1 = 77 := by simpa using hd
      simp [from_octets]
    | [b0, b1, b2] =>
      obtain ⟨rfl, rfl, rfl⟩ : b0 = 66 ∧ b1 = 77 ∧ b2 = 70 := by simpa using hd
      simp [from_octets]
    | b0 :: b1 :: b2 :: b3 :: rest =>
      have hm : min 4 (b0 :: b1 :: b2 :: b3 :: rest).length = 4 := by
        simp only [List.length_cons]
        omega
      rw [hm] at hd
      obtain ⟨rfl, rfl, rfl, rfl⟩ : b0 = 66 ∧ b1 = 77 ∧ b2 = 70 ∧ b3 = 3 := by
        simpa using hd
      have : from_octets (66 :: 77 :: 70 :: 3 :: rest) =
          blockLoop rest { info := none, common := none, pages := [],
                           chars := [], kernings := [] } := rfl
      rw [this]
      exact blockLoop_ne_header rest _

theorem from_octets_short_magic_witness :
    ([66, 77] : List Nat).length < 4 ∧ from_octets [66, 77] = .error .unexpectedEof :=
  ⟨by decide, (from_octets_short_magic [66, 77] (by decide) (by decide)).1⟩

/-- Encodes a number below 2^32 as its four little-endian bytes (the layout
of a block-header length field). -/
def encU32 (n : Nat) : List Nat :=
  [n % 256, n / 256 % 256, n / 65536 % 256, n / 16777216 % 256]

/-- Builds the byte form of one block: tag byte, 4-byte little-endian
length, then the payload. -/
def blockBytes (tag : Nat) (p : List Nat) : List Nat :=
  tag :: encU32 p.length ++ p

theorem u32le_encU32 (n : Nat) (h : n < 4294967296) :
    u32le (n % 256) (n / 256 % 256) (n / 65536 % 256) (n / 16777216 % 256) = n := by
  unfold u32le
  omega

theorem blockLoop_cons_block (tag : Nat) (payload rest : List Nat) (st st2 : BMFont)
    (hlen : payload.length < 4294967296)
    (hdisp : dispatch tag payload st = .ok st2) :
    blockLoop (blockBytes tag payload ++ rest) st = blockLoop rest st2 := by
  have hb : blockBytes tag payload ++ rest =
      tag :: (payload.length % 256) :: (payload.length / 256 % 256) ::
        (payload.length / 65536 % 256) :: (payload.length / 16777216 % 256) ::
        (payload ++ rest) := by
    simp [blockBytes, encU32]
  rw [hb, blockLoop, u32le_encU32 payload.length hlen]
  rw [if_pos (by simp)]
  rw [List.take_left, List.drop_left, hdisp]

/-- C3: a block whose tag is not in {1,2,3,4,5} and whose declared-length
payload is fully present is consumed as exactly 1 + 4 + L bytes,
contributes nothing to the result, and leaves decoding of all following
blocks unaffected: the loop continues on the remaining bytes with the
state unchanged. -/
theorem blockLoop_skips_unknown_tag (tag : Nat) (payload rest : List Nat) (st : BMFont)
    (htag : tag ∉ ([1, 2, 3, 4, 5] : List Nat)) (hlen : payload.length < 4294967296) :
    blockLoop (blockBytes tag payload ++ rest) st = blockLoop rest st := by
  apply blockLoop_cons_block tag payload rest st st hlen
  simp only [List.mem_cons, List.not_mem_nil, or_false] at htag
  push_neg at htag
  unfold dispatch
  rw [if_neg htag.1, if_neg htag.2.1, if_neg htag.2.2.1, if_neg htag.2.2.2.1,
    if_neg htag.2.2.2.2]

theorem blockLoop_skips_unknown_tag_witness :
    (200 : Nat) ∉ ([1, 2, 3, 4, 5] : List Nat) ∧
    blockLoop (blockBytes 200 [9, 9, 9] ++ [])
        { info := none, common := none, pages := [], chars := [], kernings := [] } =
      blockLoop [] { info := none, common := none, pages := [], chars := [], kernings := [] } :=
  ⟨by decide,
   blockLoop_skips_unknown_tag 200 [9, 9, 9] []
     { info := none, common := none, pages := [], chars := [], kernings := [] }
     (by decide) (by decide)⟩

/-- C4: when a buffer contains two successfully decoded blocks of the same
known tag, the result holds only the decoding of the last one: a buffer
with two Chars blocks yields exactly the second block's map (no merging),
and for each known tag the field produced by a successful dispatch
depends only on that block's payload, never on previously accumulated
state. -/
theorem later_block_replaces (p1 p2 : List Nat) (m1 m2 : List GlyphChar)
    (h1 : parse_chars_block p1 = .ok m1) (h2 : parse_chars_block p2 = .ok m2)
    (hl1 : p1.length < 4294967296) (hl2 : p2.length < 4294967296) :
    from_octets ([66, 77, 70, 3] ++ (blockBytes 4 p1 ++ blockBytes 4 p2)) =
      .ok { info := none, common := none, pages := [], chars := m2, kernings := [] } ∧
    (∀ p st, (dispatch 1 p st).map BMFont.info = (parse_info_block p).map some) ∧
    (∀ p st, (dispatch 2 p st).map BMFont.common = (parse_common_block p).map some) ∧
    (∀ p st, (dispatch 3 p st).map BMFont.pages = parse_pages_block p) ∧
    (∀ p st, (dispatch 4 p st).map BMFont.chars = parse_chars_block p) ∧
    (∀ p st, (dispatch 5 p st).map BMFont.kernings = parse_kerning_block p) := by
  refine ⟨?_, ?_, ?_, ?_, ?_, ?_⟩
  · show blockLoop (blockBytes 4 p1 ++ blockBytes 4 p2)
      { info := none, common := none, pages := [], chars := [], kernings := [] } = _
    rw [blockLoop_cons_block 4 p1 (blockBytes 4 p2) _
        { info := none, common := none, pages := [], chars := m1, kernings := [] } hl1
        (by unfold dispatch; rw [if_neg (by omega), if_neg (by omega), if_neg (by omega),
              if_pos rfl, h1]; rfl)]
    rw [show blockBytes 4 p2 = blockBytes 4 p2 ++ [] by simp]
    rw [blockLoop_cons_block 4 p2 []
        { info := none, common := none, pages := [], chars := m1, kernings := [] }
        { info := none, common := none, pages := [], chars := m2, kernings := [] } hl2
        (by unfold dispatch; rw [if_neg (by omega), if_neg (by omega), if_neg (by omega),
              if_pos rfl, h2]; rfl)]
    rw [blockLoop]
  · intro p st
    unfold dispatch
    rw [if_pos rfl]
    cases parse_info_block p <;> rfl
  · intro p st
    unfold dispatch
    rw [if_neg (by omega), if_pos rfl]
    cases parse_common_block p <;> rfl
  · intro p st
    unfold dispatch
    rw [if_neg (by omega), if_neg (by omega), if_pos rfl]
    cases hp : parse_pages_block p <;> rfl
  · intro p st
    unfold dispatch
    rw [if_neg (by omega), if_neg (by omega), if_neg (by omega), if_pos rfl]
    cases parse_chars_block p <;> rfl
  · intro p st
    unfold dispatch
    rw [if_neg (by omega), if_neg (by omega), if_neg (by omega), if_neg (by omega),
      if_pos rfl]
    cases parse_kerning_block p <;> rfl

theorem later_block_replaces_witness :
    parse_chars_block [1, 0, 0, 0, 0, 0, 0, 0, 0, 0, 0, 0, 0, 0, 0, 0, 0, 0, 0, 0] =
      .ok [{ id := 1, x := 0, y := 0, width := 0, height := 0, x_offset := 0,
             y_offset := 0, x_advance := 0, page := 0, chnl := 0 }] ∧
    parse_chars_block [2, 0, 0, 0, 0, 0, 0, 0, 0, 0, 0, 0, 0, 0, 0, 0, 0, 0, 0, 0] =
      .ok [{ id := 2, x := 0, y := 0, width := 0, height := 0, x_offset := 0,
             y_offset := 0, x_advance := 0, page := 0, chnl := 0 }] ∧
    from_octets ([66, 77, 70, 3] ++
        (blockBytes 4 [1, 0, 0, 0, 0, 0, 0, 0, 0, 0, 0, 0, 0, 0, 0, 0, 0, 0, 0, 0] ++
         blockBytes 4 [2, 0, 0, 0, 0, 0, 0, 0, 0, 0, 0, 0, 0, 0, 0, 0, 0, 0, 0, 0])) =
      .ok { info := none, common := none, pages := [],
            chars := [{ id := 2, x := 0, y := 0, width := 0, height := 0, x_offset := 0,
                        y_offset := 0, x_advance := 0, page := 0, chnl := 0 }],
            kernings := [] } :=
  ⟨rfl, rfl,
   (later_block_replaces
     [1, 0, 0, 0, 0, 0, 0, 0, 0, 0, 0, 0, 0, 0, 0, 0, 0, 0, 0, 0]
     [2, 0, 0, 0, 0, 0, 0, 0, 0, 0, 0, 0, 0, 0, 0, 0, 0, 0, 0, 0]
     [{ id := 1, x := 0, y := 0, width := 0, height := 0, x_offset := 0,
        y_offset := 0, x_advance := 0, page := 0, chnl := 0 }]
     [{ id := 2, x := 0, y := 0, width := 0, height := 0, x_offset := 0,
        y_offset := 0, x_advance := 0, page := 0, chnl := 0 }]
     rfl rfl (by decide) (by decide)).1⟩

/-- C7 counterexample: a Common block payload of 16 zero bytes — longer
than the fixed ten-field 15-byte layout — decodes successfully, so a
Common block longer than the fixed layout does not fail as the claim
states. -/
theorem common_block_longer_decodes :
    parse_common_block (List.replicate 16 0) =
      .ok { line_height := 0, base := 0, scale_w := 0, scale_h := 0, pages := 0,
            bit_field := 0, alpha_chnl := 0, red_chnl := 0, green_chnl := 0,
            blue_chnl := 0 } ∧
    (List.replicate 16 0).length ≠ 15 :=
  ⟨rfl, by decide⟩

/-- C7 amended: a Common block decodes successfully exactly when its
payload holds at least the fixed ten-field 15-byte layout: a shorter
payload fails with the truncation error when a field read runs past the
block end, and a payload of 15 or more bytes decodes its first 15 bytes
with any excess bytes left unread and ignored. -/
theorem common_block_length_behavior (data : List Nat) :
    (data.length < 15 → parse_common_block data = .error .unexpectedEof) ∧
    ∀ (l0 l1 b0 b1 w0 w1 e0 e1 pg0 pg1 bf ac rc gc bc : Nat) (rest : List Nat),
      parse_common_block
          (l0 :: l1 :: b0 :: b1 :: w0 :: w1 :: e0 :: e1 :: pg0 :: pg1 ::
            bf :: ac :: rc :: gc :: bc :: rest) =
        .ok { line_height := u16le l0 l1, base := u16le b0 b1, scale_w := u16le w0 w1,
              scale_h := u16le e0 e1, pages := u16le pg0 pg1, bit_field := bf,
              alpha_chnl := ac, red_chnl := rc, green_chnl := gc, blue_chnl := bc } := by
  constructor
  · intro hlen
    rw [parse_common_block.eq_def]
    split
    · simp only [List.length_cons] at hlen
      omega
    · rfl
  · intro l0 l1 b0 b1 w0 w1 e0 e1 pg0 pg1 bf ac rc gc bc rest
    rfl

theorem common_block_length_behavior_witness :
    ([] : List Nat).length < 15 ∧ parse_common_block [] = .error .unexpectedEof :=
  ⟨by decide, (common_block_length_behavior []).1 (by decide)⟩

/-- Encodes a number below 2^16 as its two little-endian bytes. -/
def encU16 (n : Nat) : List Nat := [n % 256, n / 256 % 256]

/-- Encodes a signed 16-bit value as its two little-endian two's-complement
bytes. -/
def encI16 (z : Int) : List Nat := encU16 (z % 65536).toNat

/-- Serializes one glyph record in the fixed 20-byte Chars layout. -/
def encodeRec (c : GlyphChar) : List Nat :=
  encU32 c.id ++ encU16 c.x ++ encU16 c.y ++ encU16 c.width ++ encU16 c.height ++
  encI16 c.x_offset ++ encI16 c.y_offset ++ encI16 c.x_advance ++ [c.page, c.chnl]

/-- Field ranges of a real `Char` record: id is u32, x/y/width/height are
u16, the offsets and advance are i16, page and chnl are u8. -/
def GlyphChar.wf (c : GlyphChar) : Prop :=
  c.id < 4294967296 ∧ c.x < 65536 ∧ c.y < 65536 ∧ c.width < 65536 ∧ c.height < 65536 ∧
  -32768 ≤ c.x_offset ∧ c.x_offset < 32768 ∧ -32768 ≤ c.y_offset ∧ c.y_offset < 32768 ∧
  -32768 ≤ c.x_advance ∧ c.x_advance < 32768 ∧ c.page < 256 ∧ c.chnl < 256

instance (c : GlyphChar) : Decidable c.wf := by
  unfold GlyphChar.wf
  infer_instance

/-- Number of entries with the given id in the chars map model. -/
def countId (i : Nat) : List GlyphChar → Nat
  | [] => 0
  | c :: m => (if c.id = i then 1 else 0) + countId i m

/-- Lookup in the chars map model: the first entry with the given id. -/
def lookupId (i : Nat) : List GlyphChar → Option GlyphChar
  | [] => none
  | c :: m => if c.id = i then some c else lookupId i m

theorem u16le_encU16 (n : Nat) (h : n < 65536) :
    u16le (n % 256) (n / 256 % 256) = n := by
  unfold u16le
  omega

theorem i16le_encI16 (z : Int) (h1 : -32768 ≤ z) (h2 : z < 32768) :
    i16le ((z % 65536).toNat % 256) ((z % 65536).toNat / 256 % 256) = z := by
  simp only [i16le]
  split <;> omega

theorem parse_chars_go_record (c : GlyphChar) (hc : c.wf) (rest : List Nat)
    (acc : List GlyphChar) :
    parse_chars_go (encodeRec c ++ rest) acc = parse_chars_go rest (insertChar acc c) := by
  obtain ⟨h1, h2, h3, h4, h5, h6, h7, h8, h9, h10, h11, h12, h13⟩ := hc
  have he : encodeRec c ++ rest =
      (c.id % 256) :: (c.id / 256 % 256) :: (c.id / 65536 % 256) :: (c.id / 16777216 % 256) ::
      (c.x % 256) :: (c.x / 256 % 256) :: (c.y % 256) :: (c.y / 256 % 256) ::
      (c.width % 256) :: (c.width / 256 % 256) ::
      (c.height % 256) :: (c.height / 256 % 256) ::
      ((c.x_offset % 65536).toNat % 256) :: ((c.x_offset % 65536).toNat / 256 % 256) ::
      ((c.y_offset % 65536).toNat % 256) :: ((c.y_offset % 65536).toNat / 256 % 256) ::
      ((c.x_advance % 65536).toNat % 256) :: ((c.x_advance % 65536).toNat / 256 % 256) ::
      c.page :: c.chnl :: rest := by
    simp [encodeRec, encU32, encU16, encI16]
  rw [he, parse_chars_go]
  rw [u32le_encU32 c.id h1, u16le_encU16 c.x h2, u16le_encU16 c.y h3,
    u16le_encU16 c.width h4, u16le_encU16 c.height h5,
    i16le_encI16 c.x_offset h6 h7, i16le_encI16 c.y_offset h8 h9,
    i16le_encI16 c.x_advance h10 h11]

theorem parse_chars_go_encode (recs : List GlyphChar) (hwf : ∀ r ∈ recs, r.wf) :
    ∀ acc, parse_chars_go ((recs.map encodeRec).flatten) acc =
      .ok (recs.foldl insertChar acc) := by
  induction recs with
  | nil =>
    intro acc
    simp [parse_chars_go]
  | cons c cs ih =>
    intro acc
    rw [List.map_cons, List.flatten_cons]
    rw [parse_chars_go_record c (hwf c (by simp)) _ acc]
    rw [List.foldl_cons]
    exact ih (fun r hr => hwf r (by simp [hr])) (insertChar acc c)

theorem countId_append (i : Nat) (m l : List GlyphChar) :
    countId i (m ++ l) = countId i m + countId i l := by
  induction m with
  | nil => simp [countId]
  | cons x xs ih => simp [countId, ih, Nat.add_assoc]

theorem countId_map_replace (i : Nat) (m : List GlyphChar) (c : GlyphChar) :
    countId i (m.map (fun x => if x.id = c.id then c else x)) = countId i m := by
  induction m with
  | nil => simp [countId]
  | cons x xs ih =>
    simp only [List.map_cons, countId, ih]
    by_cases hx : x.id = c.id
    · by_cases hci : c.id = i <;> simp [hx, hci]
    · simp [hx]

theorem any_id_countId (i : Nat) (m : List GlyphChar)
    (h : m.any (fun x => x.id = i) = true) : 1 ≤ countId i m := by
  induction m with
  | nil => simp at h
  | cons x xs ih =>
    simp only [List.any_cons, Bool.or_eq_true, decide_eq_true_eq] at h
    rcases h with h | h
    · simp [countId, h]
    · have := ih h
      simp only [countId]
      omega

theorem not_any_id_countId (i : Nat) (m : List GlyphChar)
    (h : ¬ m.any (fun x => x.id = i) = true) : countId i m = 0 := by
  induction m with
  | nil => rfl
  | cons x xs ih =>
    simp only [List.any_cons, Bool.or_eq_true, decide_eq_true_eq, not_or] at h
    simp only [countId, if_neg h.1, ih (by simpa using h.2)]

theorem countId_insertChar (i : Nat) (m : List GlyphChar) (c : GlyphChar) :
    countId i (insertChar m c) =
      if c.id = i then max (countId i m) 1 else countId i m := by
  unfold insertChar
  split
  · rename_i hany
    rw [countId_map_replace]
    by_cases hci : c.id = i
    · subst hci
      have := any_id_countId c.id m hany
      rw [if_pos rfl]
      omega
    · simp [hci]
  · rename_i hany
    rw [countId_append]
    by_cases hci : c.id = i
    · subst hci
      have h0 : countId c.id m = 0 := not_any_id_countId c.id m hany
      simp [countId, h0]
    · simp [countId, hci]

theorem countId_foldl (i : Nat) (recs : List GlyphChar) : ∀ acc : List GlyphChar,
    countId i (recs.foldl insertChar acc) =
      if recs.any (fun r => r.id = i) then max (countId i acc) 1
      else countId i acc := by
  induction recs with
  | nil => intro acc; simp
  | cons c cs ih =>
    intro acc
    rw [List.foldl_cons, ih, countId_insertChar]
    by_cases hc : c.id = i <;> by_cases hcs : cs.any (fun r => r.id = i) = true <;>
      simp [List.any_cons, hc, hcs]

theorem lookupId_map_replace_eq (m : List GlyphChar) (c : GlyphChar) :
    lookupId c.id (m.map (fun x => if x.id = c.id then c else x)) =
      if m.any (fun x => x.id = c.id) then some c else none := by
  induction m with
  | nil => simp [lookupId]
  | cons x xs ih =>
    by_cases hx : x.id = c.id
    · simp [lookupId, List.any_cons, hx]
    · simp [lookupId, List.any_cons, hx, ih]

theorem lookupId_map_replace_ne (i : Nat) (m : List GlyphChar) (c : GlyphChar)
    (hne : ¬ c.id = i) :
    lookupId i (m.map (fun x => if x.id = c.id then c else x)) = lookupId i m := by
  induction m with
  | nil => simp [lookupId]
  | cons x xs ih =>
    by_cases hx : x.id = c.id
    · have hxi : ¬ x.id = i := by rw [hx]; exact hne
      simp [lookupId, hx, hne, hxi, ih]
    · simp [lookupId, hx, ih]

theorem lookupId_append_single (i : Nat) (m : List GlyphChar) (c : GlyphChar) :
    lookupId i (m ++ [c]) =
      match lookupId i m with
      | some v => some v
      | none => if c.id = i then some c else none := by
  induction m with
  | nil => simp [lookupId]
  | cons x xs ih =>
    by_cases hx : x.id = i <;> simp [lookupId, hx, ih]

theorem not_any_lookupId (i : Nat) (m : List GlyphChar)
    (h : ¬ m.any (fun x => x.id = i) = true) : lookupId i m = none := by
  induction m with
  | nil => rfl
  | cons x xs ih =>
    simp only [List.any_cons, Bool.or_eq_true, decide_eq_true_eq, not_or] at h
    simp only [lookupId, if_neg h.1, ih (by simpa using h.2)]

theorem lookupId_insertChar (i : Nat) (m : List GlyphChar) (c : GlyphChar) :
    lookupId i (insertChar m c) = if c.id = i then some c else lookupId i m := by
  unfold insertChar
  split
  · rename_i hany
    by_cases hci : c.id = i
    · subst hci
      rw [lookupId_map_replace_eq, if_pos hany, if_pos rfl]
    · rw [lookupId_map_replace_ne i m c hci, if_neg hci]
  · rename_i hany
    rw [lookupId_append_single]
    by_cases hci : c.id = i
    · subst hci
      rw [not_any_lookupId c.id m hany]
    · cases h : lookupId i m <;> simp [hci]

theorem getLast?_cons_glyph (c : GlyphChar) (l : List GlyphChar) :
    (c :: l).getLast? =
      match l.getLast? with
      | some v => some v
      | none => some c := by
  cases l with
  | nil => rfl
  | cons x xs =>
    rw [List.getLast?_cons_cons]
    cases h : (x :: xs).getLast? with
    | some v => rfl
    | none => simp [List.getLast?_eq_none_iff] at h

theorem lookupId_foldl (i : Nat) (recs : List GlyphChar) : ∀ acc : List GlyphChar,
    lookupId i (recs.foldl insertChar acc) =
      match (recs.filter (fun r => r.id = i)).getLast? with
      | some v => some v
      | none => lookupId i acc := by
  induction recs with
  | nil => intro acc; simp
  | cons c cs ih =>
    intro acc
    rw [List.foldl_cons, ih]
    by_cases hc : c.id = i
    · rw [List.filter_cons_of_pos (by simp [hc]), getLast?_cons_glyph]
      cases hl : (cs.filter (fun r => r.id = i)).getLast? with
      | some v => rfl
      | none => simp [lookupId_insertChar, hc]
    · rw [List.filter_cons_of_neg (by simp [hc])]
      cases hl : (cs.filter (fun r => r.id = i)).getLast? with
      | some v => rfl
      | none => simp [lookupId_insertChar, hc]

/-- C8: decoding a single Chars block whose records include duplicate ids
yields a map that holds exactly one entry for each present id — the entry
carrying the values of the last record with that id in the block — and no
entry for an absent id: the block decodes to the insertion fold of its
records, that fold counts each present id exactly once, and its lookup
returns the last record with the id. -/
theorem chars_duplicate_id_last_wins (recs : List GlyphChar) (i : Nat)
    (hwf : ∀ r ∈ recs, r.wf) :
    parse_chars_block ((recs.map encodeRec).flatten) = .ok (recs.foldl insertChar []) ∧
    countId i (recs.foldl insertChar []) =
      (if recs.any (fun r => r.id = i) then 1 else 0) ∧
    lookupId i (recs.foldl insertChar []) =
      (recs.filter (fun r => r.id = i)).getLast? := by
  refine ⟨parse_chars_go_encode recs hwf [], ?_, ?_⟩
  · rw [countId_foldl]
    by_cases h : recs.any (fun r => r.id = i) = true <;> simp [h, countId]
  · rw [lookupId_foldl]
    cases h : (recs.filter (fun r => r.id = i)).getLast? <;> simp [lookupId]

theorem chars_duplicate_id_last_wins_witness :
    parse_chars_block
        (([{ id := 7, x := 1, y := 0, width := 0, height := 0, x_offset := 0,
             y_offset := 0, x_advance := 0, page := 0, chnl := 0 },
           { id := 7, x := 2, y := 0, width := 0, height := 0, x_offset := 0,
             y_offset := 0, x_advance := 0, page := 0, chnl := 0 }].map encodeRec).flatten) =
      .ok ([{ id := 7, x := 1, y := 0, width := 0, height := 0, x_offset := 0,
              y_offset := 0, x_advance := 0, page := 0, chnl := 0 },
            { id := 7, x := 2, y := 0, width := 0, height := 0, x_offset := 0,
              y_offset := 0, x_advance := 0, page := 0, chnl := 0 }].foldl insertChar []) ∧
    countId 7
        ([{ id := 7, x := 1, y := 0, width := 0, height := 0, x_offset := 0,
            y_offset := 0, x_advance := 0, page := 0, chnl := 0 },
          { id := 7, x := 2, y := 0, width := 0, height := 0, x_offset := 0,
            y_offset := 0, x_advance := 0, page := 0, chnl := 0 }].foldl insertChar []) = 1 ∧
    lookupId 7
        ([{ id := 7, x := 1, y := 0, width := 0, height := 0, x_offset := 0,
            y_offset := 0, x_advance := 0, page := 0, chnl := 0 },
          { id := 7, x := 2, y := 0, width := 0, height := 0, x_offset := 0,
            y_offset := 0, x_advance := 0, page := 0, chnl := 0 }].foldl insertChar []) =
      some { id := 7, x := 2, y := 0, width := 0, height := 0, x_offset := 0,
             y_offset := 0, x_advance := 0, page := 0, chnl := 0 } := by
  obtain ⟨h1, h2, h3⟩ := chars_duplicate_id_last_wins
    [{ id := 7, x := 1, y := 0, width := 0, height := 0, x_offset := 0,
       y_offset := 0, x_advance := 0, page := 0, chnl := 0 },
     { id := 7, x := 2, y := 0, width := 0, height := 0, x_offset := 0,
       y_offset := 0, x_advance := 0, page := 0, chnl := 0 }] 7 (by decide)
  exact ⟨h1, h2.trans (by decide), h3.trans (by decide)⟩

theorem utf8Run_append (s : Utf8State) (a b : List Nat) :
    utf8Run s (a ++ b) =
      match utf8Run s a with
      | some s2 => utf8Run s2 b
      | none => none := by
  induction a generalizing s with
  | nil => simp [utf8Run]
  | cons x xs ih =>
    simp only [List.cons_append, utf8Run]
    cases utf8Step s x <;> simp [ih]

theorem validUtf8_append (a b : List Nat) (ha : validUtf8 a = true)
    (hb : validUtf8 b = true) : validUtf8 (a ++ b) = true := by
  simp only [validUtf8, decide_eq_true_eq] at ha hb ⊢
  rw [utf8Run_append, ha]
  exact hb

theorem readUntilNul_run (r : List Nat) (hr : ∀ x ∈ r, x ≠ 0) (rest : List Nat) :
    readUntilNul (r ++ 0 :: rest) = (r ++ [0], rest) := by
  induction r with
  | nil => simp [readUntilNul]
  | cons x xs ih =>
    have hx : x ≠ 0 := hr x (by simp)
    have ih2 := ih (fun y hy => hr y (by simp [hy]))
    simp only [List.cons_append, readUntilNul, if_neg hx, List.append_eq, ih2]

theorem dropWhile_zero_of_no_zero (l : List Nat) (h : ∀ x ∈ l, x ≠ 0) :
    List.dropWhile (fun b => b = 0) l = l := by
  cases l with
  | nil => rfl
  | cons x xs =>
    rw [List.dropWhile_cons_of_neg]
    simp [h x (by simp)]

theorem trimEndNuls_run (r : List Nat) (hr : ∀ x ∈ r, x ≠ 0) :
    trimEndNuls (r ++ [0]) = r := by
  unfold trimEndNuls
  rw [List.reverse_append]
  have h0 : ([0] : List Nat).reverse ++ r.reverse = 0 :: r.reverse := rfl
  rw [h0, List.dropWhile_cons_of_pos (by simp)]
  rw [dropWhile_zero_of_no_zero r.reverse (fun x hx => hr x (List.mem_reverse.mp hx))]
  exact List.reverse_reverse r

theorem parse_pages_go_step (r rest : List Nat) (acc : List (List Nat))
    (hr0 : ∀ x ∈ r, x ≠ 0) (hrv : validUtf8 r = true) :
    parse_pages_go (r ++ 0 :: rest) acc = parse_pages_go rest (acc ++ [r]) := by
  have hvr0 : validUtf8 (r ++ [0]) = true := validUtf8_append r [0] hrv (by decide)
  obtain ⟨x, xs, hx⟩ : ∃ x xs, r ++ 0 :: rest = x :: xs := by
    cases r with
    | nil => exact ⟨0, rest, rfl⟩
    | cons a as => exact ⟨a, as ++ 0 :: rest, rfl⟩
  rw [hx, parse_pages_go, ← hx, readUntilNul_run r hr0 rest]
  rw [if_pos hvr0, trimEndNuls_run r hr0]

theorem parse_pages_go_runs (runs : List (List Nat))
    (h : ∀ r ∈ runs, (∀ x ∈ r, x ≠ 0) ∧ validUtf8 r = true) :
    ∀ acc, parse_pages_go ((runs.map (fun r => r ++ [0])).flatten) acc =
      .ok (acc ++ runs) := by
  induction runs with
  | nil => intro acc; simp [parse_pages_go]
  | cons r rs ih =>
    intro acc
    obtain ⟨hr0, hrv⟩ := h r (by simp)
    rw [List.map_cons, List.flatten_cons]
    have he : (r ++ [0]) ++ (rs.map (fun q => q ++ [0])).flatten =
        r ++ 0 :: (rs.map (fun q => q ++ [0])).flatten := by
      simp
    rw [he, parse_pages_go_step r _ acc hr0 hrv]
    rw [ih (fun q hq => h q (by simp [hq])) (acc ++ [r])]
    simp

/-- C9: a Pages block payload that is a concatenation of NUL-terminated
valid-UTF-8 runs decodes to exactly those runs with the terminating NULs
stripped, in encounter order; an empty payload yields an empty page list
and is not an error. -/
theorem pages_block_runs (runs : List (List Nat))
    (h : ∀ r ∈ runs, (∀ x ∈ r, x ≠ 0) ∧ validUtf8 r = true) :
    parse_pages_block ((runs.map (fun r => r ++ [0])).flatten) = .ok runs ∧
    parse_pages_block [] = .ok [] := by
  constructor
  · have := parse_pages_go_runs runs h []
    simpa [parse_pages_block] using this
  · unfold parse_pages_block
    rw [parse_pages_go]

theorem pages_block_runs_witness :
    parse_pages_block [104, 105, 0, 0] = .ok [[104, 105], []] := by
  have h := (pages_block_runs [[104, 105], []] (by decide)).1
  simpa using h
